import Mathlib

/-!
Verification of the spatial index engine of kart (src/kart/spatial_filter/index.py),
checked against its natural-language specification.

Conventions of the embedding:
* Python floats are modelled as rational numbers (ℚ); Python's unbounded ints as ℕ / ℤ.
* Python `assert` statements are modelled by `Option` / checks returning `none` on failure.
* Python exceptions are modelled by `Except Unit`; a `try ... except` block maps
  `.error` to the handler's result.
* External collaborators (osgeo transforms, git subprocesses, OGR Segmentize) are
  modelled as explicit function parameters, as the spec specifies them only via
  their interfaces.
-/

namespace KartSpatialFilterIndex

/-- An envelope in (w, s, e, n) order, degrees longitude / latitude. -/
abbrev Envelope := ℚ × ℚ × ℚ × ℚ

/-- An envelope in (min-x, min-y, max-x, max-y) order. -/
abbrev MinMaxEnvelope := ℚ × ℚ × ℚ × ℚ

/-! ## Envelope codec (EnvelopeEncoder) -/

/-- EnvelopeEncoder.DEFAULT_BITS_PER_VALUE. -/
def DEFAULT_BITS_PER_VALUE : ℕ := 20

/-- EnvelopeEncoder.VALUE_MAX_INT: `2 ** bits_per_value - 1`. -/
def VALUE_MAX_INT (B : ℕ) : ℕ := 2 ^ B - 1

/-- EnvelopeEncoder._encode_value: scale `value` from `[min_value, max_value]` onto
`[0, VALUE_MAX_INT]` and round with `round_fn`. The two `assert` statements
(`min_value <= value <= max_value` and `0 <= encoded <= VALUE_MAX_INT`) are modelled
as checks that return `none` when they fail. -/
def _encode_value (B : ℕ) (value minValue maxValue : ℚ) (roundFn : ℚ → ℤ) : Option ℕ :=
  if minValue ≤ value ∧ value ≤ maxValue then
    let normalised : ℚ := (value - minValue) / (maxValue - minValue)
    let encoded : ℤ := roundFn (normalised * (VALUE_MAX_INT B : ℚ))
    if 0 ≤ encoded ∧ encoded ≤ (VALUE_MAX_INT B : ℤ) then some encoded.toNat else none
  else none

/-- EnvelopeEncoder.encode up to (and including) the final assert: the four coordinates
are encoded with floor (w, s) and ceil (e, n) rounding and packed, each shifted left by
BITS_PER_VALUE before or-ing in the next value. The constructor's
`assert bits_per_value % 2 == 0` is modelled by the outermost check. -/
def encodeInteger (B : ℕ) (env : Envelope) : Option ℕ :=
  if B % 2 = 0 then
    match _encode_value B env.1 (-180) 180 Int.floor with
    | none => none
    | some iw =>
      match _encode_value B env.2.1 (-90) 90 Int.floor with
      | none => none
      | some js =>
        match _encode_value B env.2.2.1 (-180) 180 Int.ceil with
        | none => none
        | some ke =>
          match _encode_value B env.2.2.2 (-90) 90 Int.ceil with
          | none => none
          | some ln =>
            let integer : ℕ := ((iw <<< B ||| js) <<< B ||| ke) <<< B ||| ln
            if integer ≤ 2 ^ (4 * B) - 1 then some integer else none
  else none

/-- Python's `integer.to_bytes(k, "big")`: the big-endian byte string of length `k`. -/
def natToBytesBE : ℕ → ℕ → List ℕ
  | 0, _ => []
  | k + 1, n => natToBytesBE k (n / 256) ++ [n % 256]

/-- Python's `int.from_bytes(encoded, "big")`. -/
def natFromBytesBE (bs : List ℕ) : ℕ := bs.foldl (fun acc b => acc * 256 + b) 0

/-- EnvelopeEncoder.encode: pack the four values and emit
`BYTES_PER_ENVELOPE = 4 * BITS_PER_VALUE // 8` big-endian bytes. -/
def encode (B : ℕ) (env : Envelope) : Option (List ℕ) :=
  (encodeInteger B env).map (natToBytesBE (4 * B / 8))

/-- EnvelopeEncoder._decode_value: `encoded / VALUE_MAX_INT * (max_value - min_value) + min_value`.
Its assert `0 <= encoded <= VALUE_MAX_INT` always holds at the call sites because the
argument is masked with `VALUE_MAX_INT` first. -/
def _decode_value (B : ℕ) (encoded : ℕ) (minValue maxValue : ℚ) : ℚ :=
  (encoded : ℚ) / (VALUE_MAX_INT B : ℚ) * (maxValue - minValue) + minValue

/-- EnvelopeEncoder.decode: big-endian bytes to an integer, then extract the four fields
from the least significant (n) to the most significant (w) by masking with VALUE_MAX_INT
and shifting right by BITS_PER_VALUE. The assert on the integer's range is modelled as a
check. -/
def decode (B : ℕ) (encoded : List ℕ) : Option Envelope :=
  let integer := natFromBytesBE encoded
  if integer ≤ 2 ^ (4 * B) - 1 then
    let n := _decode_value B (integer &&& VALUE_MAX_INT B) (-90) 90
    let i1 := integer >>> B
    let e := _decode_value B (i1 &&& VALUE_MAX_INT B) (-180) 180
    let i2 := i1 >>> B
    let s := _decode_value B (i2 &&& VALUE_MAX_INT B) (-90) 90
    let i3 := i2 >>> B
    let w := _decode_value B (i3 &&& VALUE_MAX_INT B) (-180) 180
    some (w, s, e, n)
  else none

/-- The bounds required of an envelope by EnvelopeEncoder.encode's asserts:
`-180 <= w, e <= 180` and `-90 <= s, n <= 90`. -/
def envelopeInBounds (env : Envelope) : Prop :=
  -180 ≤ env.1 ∧ env.1 ≤ 180 ∧ -90 ≤ env.2.1 ∧ env.2.1 ≤ 90 ∧
    -180 ≤ env.2.2.1 ∧ env.2.2.1 ≤ 180 ∧ -90 ≤ env.2.2.2 ∧ env.2.2.2 ≤ 90

instance (env : Envelope) : Decidable (envelopeInBounds env) := by
  unfold envelopeInBounds; infer_instance

/-- Derivation of the effective bits-per-value on open:
`bits_per_value = envelope_length * 8 // 4 if envelope_length else None` in
update_spatial_filter_index (Python truthiness: both None and 0 fall back), and
`EnvelopeEncoder.__init__` replaces None by the default. `none` models a
`SELECT length(envelope) ... LIMIT 1` that found no rows. -/
def effectiveBitsPerValue (envelopeLength : Option ℕ) : ℕ :=
  let bitsPerValue : Option ℕ :=
    match envelopeLength with
    | none => none
    | some l => if l ≠ 0 then some (l * 8 / 4) else none
  bitsPerValue.getD DEFAULT_BITS_PER_VALUE

/-! ## Codec helper lemmas -/

theorem natToBytesBE_length (k : ℕ) : ∀ n, (natToBytesBE k n).length = k := by
  induction k with
  | zero => intro n; rfl
  | succ k ih => intro n; simp [natToBytesBE, ih]

theorem natFromBytesBE_append (bs : List ℕ) (b : ℕ) :
    natFromBytesBE (bs ++ [b]) = natFromBytesBE bs * 256 + b := by
  simp [natFromBytesBE, List.foldl_append]

theorem natFromBytesBE_natToBytesBE (k : ℕ) :
    ∀ n, natFromBytesBE (natToBytesBE k n) = n % 256 ^ k := by
  induction k with
  | zero => intro n; simp [natToBytesBE, natFromBytesBE, Nat.mod_one]
  | succ k ih =>
    intro n
    rw [natToBytesBE, natFromBytesBE_append, ih]
    rw [pow_succ, Nat.mul_comm (256 ^ k) 256, Nat.mod_mul]
    ring

theorem natFromBytesBE_natToBytesBE_of_lt {k n : ℕ} (h : n < 256 ^ k) :
    natFromBytesBE (natToBytesBE k n) = n := by
  rw [natFromBytesBE_natToBytesBE, Nat.mod_eq_of_lt h]

theorem bytes_pow_of_even {B : ℕ} (hBe : B % 2 = 0) : 256 ^ (4 * B / 8) = 2 ^ (4 * B) := by
  obtain ⟨m, rfl⟩ : ∃ m, B = 2 * m := ⟨B / 2, by omega⟩
  have h1 : 4 * (2 * m) / 8 = m := by omega
  have h2 : (256 : ℕ) = 2 ^ 8 := by norm_num
  rw [h1, h2, ← pow_mul]
  congr 1
  omega

theorem packShiftOr (B a b : ℕ) (hb : b ≤ VALUE_MAX_INT B) : a <<< B ||| b = a * 2 ^ B + b := by
  have h1 : 0 < 2 ^ B := Nat.two_pow_pos B
  have hb' : b < 2 ^ B := by unfold VALUE_MAX_INT at hb; omega
  rw [Nat.shiftLeft_eq, Nat.mul_comm, ← Nat.mul_add_lt_is_or hb', Nat.mul_comm]

theorem packBound {m B x y : ℕ} (hx : x ≤ 2 ^ m - 1) (hy : y ≤ 2 ^ B - 1) :
    x * 2 ^ B + y ≤ 2 ^ (m + B) - 1 := by
  have h1 : 0 < 2 ^ m := Nat.two_pow_pos m
  have h2 : 0 < 2 ^ B := Nat.two_pow_pos B
  have hde : 2 ^ B ≤ 2 ^ (m + B) := Nat.pow_le_pow_right (by norm_num) (Nat.le_add_left _ _)
  have hxx : x * 2 ^ B ≤ 2 ^ (m + B) - 2 ^ B := by
    calc x * 2 ^ B ≤ (2 ^ m - 1) * 2 ^ B := Nat.mul_le_mul_right _ hx
      _ = 2 ^ (m + B) - 2 ^ B := by rw [Nat.sub_mul, one_mul, pow_add]
  have hy1 : y + 1 ≤ 2 ^ B := by omega
  have key : x * 2 ^ B + y + 1 ≤ 2 ^ (m + B) := by
    have h3 := Nat.add_le_add hxx hy1
    rw [Nat.sub_add_cancel hde] at h3
    rw [add_assoc]
    exact h3
  exact Nat.le_sub_one_of_lt key

theorem extractLowAnd {a b B : ℕ} (hb : b < 2 ^ B) :
    (a * 2 ^ B + b) &&& VALUE_MAX_INT B = b := by
  rw [VALUE_MAX_INT, Nat.and_pow_two_sub_one_eq_mod, Nat.mul_comm,
    Nat.mul_add_mod, Nat.mod_eq_of_lt hb]

theorem extractLowShift {a b B : ℕ} (hb : b < 2 ^ B) :
    (a * 2 ^ B + b) >>> B = a := by
  rw [Nat.shiftRight_eq_div_pow, Nat.mul_comm, Nat.mul_add_div (Nat.two_pow_pos B),
    Nat.div_eq_of_lt hb]
  omega

theorem selfAnd {a B : ℕ} (ha : a ≤ VALUE_MAX_INT B) : a &&& VALUE_MAX_INT B = a := by
  have h1 : 0 < 2 ^ B := Nat.two_pow_pos B
  have ha' : a < 2 ^ B := by unfold VALUE_MAX_INT at ha; omega
  rw [VALUE_MAX_INT, Nat.and_pow_two_sub_one_eq_mod, Nat.mod_eq_of_lt ha']

theorem _encode_value_floor (B : ℕ) (v minv maxv : ℚ) (hm : minv < maxv)
    (h1 : minv ≤ v) (h2 : v ≤ maxv) :
    _encode_value B v minv maxv Int.floor
        = some (⌊(v - minv) / (maxv - minv) * (VALUE_MAX_INT B : ℚ)⌋.toNat)
      ∧ (⌊(v - minv) / (maxv - minv) * (VALUE_MAX_INT B : ℚ)⌋.toNat) ≤ VALUE_MAX_INT B := by
  have hden : (0 : ℚ) < maxv - minv := by linarith
  have hnorm0 : 0 ≤ (v - minv) / (maxv - minv) := div_nonneg (by linarith) hden.le
  have hnorm1 : (v - minv) / (maxv - minv) ≤ 1 := by
    rw [div_le_one hden]; linarith
  have hV0 : (0 : ℚ) ≤ (VALUE_MAX_INT B : ℚ) := by positivity
  have harg0 : 0 ≤ (v - minv) / (maxv - minv) * (VALUE_MAX_INT B : ℚ) := mul_nonneg hnorm0 hV0
  have hargV : (v - minv) / (maxv - minv) * (VALUE_MAX_INT B : ℚ) ≤ (VALUE_MAX_INT B : ℚ) := by
    nlinarith
  have hf0 : 0 ≤ ⌊(v - minv) / (maxv - minv) * (VALUE_MAX_INT B : ℚ)⌋ :=
    Int.floor_nonneg.mpr harg0
  have hfV : ⌊(v - minv) / (maxv - minv) * (VALUE_MAX_INT B : ℚ)⌋ ≤ (VALUE_MAX_INT B : ℤ) := by
    have h := Int.floor_le_floor hargV
    rwa [Int.floor_natCast] at h
  refine ⟨?_, by omega⟩
  unfold _encode_value
  rw [if_pos ⟨h1, h2⟩]
  simp only []
  rw [if_pos ⟨hf0, hfV⟩]

theorem _encode_value_ceil (B : ℕ) (v minv maxv : ℚ) (hm : minv < maxv)
    (h1 : minv ≤ v) (h2 : v ≤ maxv) :
    _encode_value B v minv maxv Int.ceil
        = some (⌈(v - minv) / (maxv - minv) * (VALUE_MAX_INT B : ℚ)⌉.toNat)
      ∧ (⌈(v - minv) / (maxv - minv) * (VALUE_MAX_INT B : ℚ)⌉.toNat) ≤ VALUE_MAX_INT B := by
  have hden : (0 : ℚ) < maxv - minv := by linarith
  have hnorm0 : 0 ≤ (v - minv) / (maxv - minv) := div_nonneg (by linarith) hden.le
  have hnorm1 : (v - minv) / (maxv - minv) ≤ 1 := by
    rw [div_le_one hden]; linarith
  have hV0 : (0 : ℚ) ≤ (VALUE_MAX_INT B : ℚ) := by positivity
  have harg0 : 0 ≤ (v - minv) / (maxv - minv) * (VALUE_MAX_INT B : ℚ) := mul_nonneg hnorm0 hV0
  have hargV : (v - minv) / (maxv - minv) * (VALUE_MAX_INT B : ℚ) ≤ (VALUE_MAX_INT B : ℚ) := by
    nlinarith
  have hf0 : 0 ≤ ⌈(v - minv) / (maxv - minv) * (VALUE_MAX_INT B : ℚ)⌉ := Int.ceil_nonneg harg0
  have hfV : ⌈(v - minv) / (maxv - minv) * (VALUE_MAX_INT B : ℚ)⌉ ≤ (VALUE_MAX_INT B : ℤ) := by
    have h := Int.ceil_le.mpr hargV
    simpa using h
  refine ⟨?_, by omega⟩
  unfold _encode_value
  rw [if_pos ⟨h1, h2⟩]
  simp only []
  rw [if_pos ⟨hf0, hfV⟩]

theorem VALUE_MAX_INT_pos {B : ℕ} (hB : 0 < B) : (0 : ℚ) < (VALUE_MAX_INT B : ℚ) := by
  have h2 : (2 : ℕ) ^ 1 ≤ 2 ^ B := Nat.pow_le_pow_right (by norm_num) hB
  have : 1 ≤ VALUE_MAX_INT B := by unfold VALUE_MAX_INT; omega
  exact_mod_cast Nat.lt_of_lt_of_le Nat.zero_lt_one this

theorem _decode_value_floor_bounds (B : ℕ) (v minv maxv : ℚ) (hB : 0 < B) (hm : minv < maxv)
    (h1 : minv ≤ v) (h2 : v ≤ maxv) :
    _decode_value B (⌊(v - minv) / (maxv - minv) * (VALUE_MAX_INT B : ℚ)⌋.toNat) minv maxv ≤ v
      ∧ v - _decode_value B (⌊(v - minv) / (maxv - minv) * (VALUE_MAX_INT B : ℚ)⌋.toNat) minv maxv
          ≤ (maxv - minv) / (VALUE_MAX_INT B : ℚ) := by
  have hden : (0 : ℚ) < maxv - minv := by linarith
  have hV : (0 : ℚ) < (VALUE_MAX_INT B : ℚ) := VALUE_MAX_INT_pos hB
  set x : ℚ := (v - minv) / (maxv - minv) * (VALUE_MAX_INT B : ℚ) with hx
  have harg0 : 0 ≤ x := by
    apply mul_nonneg (div_nonneg (by linarith) hden.le) hV.le
  have hcast : ((⌊x⌋.toNat : ℕ) : ℚ) = ((⌊x⌋ : ℤ) : ℚ) := by
    exact_mod_cast congrArg (fun z : ℤ => (z : ℚ)) (Int.toNat_of_nonneg (Int.floor_nonneg.mpr harg0))
  have hfl : ((⌊x⌋ : ℤ) : ℚ) ≤ x := Int.floor_le x
  have hfg : x - 1 ≤ ((⌊x⌋ : ℤ) : ℚ) := (Int.sub_one_lt_floor x).le
  have hxspan : x * (maxv - minv) = (v - minv) * (VALUE_MAX_INT B : ℚ) := by
    rw [hx]; field_simp
  have hVne : (VALUE_MAX_INT B : ℚ) ≠ 0 := ne_of_gt hV
  have hp1 := mul_le_mul_of_nonneg_right hfl hden.le
  have hp2 := mul_le_mul_of_nonneg_right hfg hden.le
  have hxdiv : x * (maxv - minv) / (VALUE_MAX_INT B : ℚ) = v - minv := by
    rw [hxspan, mul_div_assoc, div_self hVne, mul_one]
  have hv : v = x * (maxv - minv) / (VALUE_MAX_INT B : ℚ) + minv := by
    rw [hxdiv]; ring
  have hd : _decode_value B (⌊x⌋.toNat) minv maxv
      = ((⌊x⌋ : ℤ) : ℚ) * (maxv - minv) / (VALUE_MAX_INT B : ℚ) + minv := by
    unfold _decode_value
    rw [hcast]; ring
  have hmono1 : ((⌊x⌋ : ℤ) : ℚ) * (maxv - minv) / (VALUE_MAX_INT B : ℚ)
      ≤ x * (maxv - minv) / (VALUE_MAX_INT B : ℚ) := by
    exact (div_le_div_right hV).mpr hp1
  constructor
  · rw [hd, hv]
    linarith [hmono1]
  · have hdiff : v - _decode_value B (⌊x⌋.toNat) minv maxv
        = (x * (maxv - minv) - ((⌊x⌋ : ℤ) : ℚ) * (maxv - minv)) / (VALUE_MAX_INT B : ℚ) := by
      rw [hd, hv]; ring
    rw [hdiff]
    refine (div_le_div_right hV).mpr ?_
    nlinarith [hp2]

theorem _decode_value_ceil_bounds (B : ℕ) (v minv maxv : ℚ) (hB : 0 < B) (hm : minv < maxv)
    (h1 : minv ≤ v) (h2 : v ≤ maxv) :
    v ≤ _decode_value B (⌈(v - minv) / (maxv - minv) * (VALUE_MAX_INT B : ℚ)⌉.toNat) minv maxv
      ∧ _decode_value B (⌈(v - minv) / (maxv - minv) * (VALUE_MAX_INT B : ℚ)⌉.toNat) minv maxv - v
          ≤ (maxv - minv) / (VALUE_MAX_INT B : ℚ) := by
  have hden : (0 : ℚ) < maxv - minv := by linarith
  have hV : (0 : ℚ) < (VALUE_MAX_INT B : ℚ) := VALUE_MAX_INT_pos hB
  set x : ℚ := (v - minv) / (maxv - minv) * (VALUE_MAX_INT B : ℚ) with hx
  have harg0 : 0 ≤ x := by
    apply mul_nonneg (div_nonneg (by linarith) hden.le) hV.le
  have hcast : ((⌈x⌉.toNat : ℕ) : ℚ) = ((⌈x⌉ : ℤ) : ℚ) := by
    exact_mod_cast congrArg (fun z : ℤ => (z : ℚ)) (Int.toNat_of_nonneg (Int.ceil_nonneg harg0))
  have hfl : x ≤ ((⌈x⌉ : ℤ) : ℚ) := Int.le_ceil x
  have hfg : ((⌈x⌉ : ℤ) : ℚ) ≤ x + 1 := (Int.ceil_lt_add_one x).le
  have hxspan : x * (maxv - minv) = (v - minv) * (VALUE_MAX_INT B : ℚ) := by
    rw [hx]; field_simp
  have hVne : (VALUE_MAX_INT B : ℚ) ≠ 0 := ne_of_gt hV
  have hp1 := mul_le_mul_of_nonneg_right hfl hden.le
  have hp2 := mul_le_mul_of_nonneg_right hfg hden.le
  have hxdiv : x * (maxv - minv) / (VALUE_MAX_INT B : ℚ) = v - minv := by
    rw [hxspan, mul_div_assoc, div_self hVne, mul_one]
  have hv : v = x * (maxv - minv) / (VALUE_MAX_INT B : ℚ) + minv := by
    rw [hxdiv]; ring
  have hd : _decode_value B (⌈x⌉.toNat) minv maxv
      = ((⌈x⌉ : ℤ) : ℚ) * (maxv - minv) / (VALUE_MAX_INT B : ℚ) + minv := by
    unfold _decode_value
    rw [hcast]; ring
  have hmono1 : x * (maxv - minv) / (VALUE_MAX_INT B : ℚ)
      ≤ ((⌈x⌉ : ℤ) : ℚ) * (maxv - minv) / (VALUE_MAX_INT B : ℚ) := by
    exact (div_le_div_right hV).mpr hp1
  constructor
  · rw [hd, hv]
    linarith [hmono1]
  · have hdiff : _decode_value B (⌈x⌉.toNat) minv maxv - v
        = (((⌈x⌉ : ℤ) : ℚ) * (maxv - minv) - x * (maxv - minv)) / (VALUE_MAX_INT B : ℚ) := by
      rw [hd, hv]; ring
    rw [hdiff]
    refine (div_le_div_right hV).mpr ?_
    nlinarith [hp2]

theorem encode_decode_value_floor (B : ℕ) (v minv maxv : ℚ) (hB : 0 < B) (hm : minv < maxv)
    (h1 : minv ≤ v) (h2 : v ≤ maxv) :
    ∃ k : ℕ, _encode_value B v minv maxv Int.floor = some k ∧ k ≤ VALUE_MAX_INT B ∧
      _decode_value B k minv maxv ≤ v ∧
      v - _decode_value B k minv maxv ≤ (maxv - minv) / (VALUE_MAX_INT B : ℚ) := by
  obtain ⟨hEq, hLe⟩ := _encode_value_floor B v minv maxv hm h1 h2
  obtain ⟨hb1, hb2⟩ := _decode_value_floor_bounds B v minv maxv hB hm h1 h2
  exact ⟨_, hEq, hLe, hb1, hb2⟩

theorem encode_decode_value_ceil (B : ℕ) (v minv maxv : ℚ) (hB : 0 < B) (hm : minv < maxv)
    (h1 : minv ≤ v) (h2 : v ≤ maxv) :
    ∃ k : ℕ, _encode_value B v minv maxv Int.ceil = some k ∧ k ≤ VALUE_MAX_INT B ∧
      v ≤ _decode_value B k minv maxv ∧
      _decode_value B k minv maxv - v ≤ (maxv - minv) / (VALUE_MAX_INT B : ℚ) := by
  obtain ⟨hEq, hLe⟩ := _encode_value_ceil B v minv maxv hm h1 h2
  obtain ⟨hb1, hb2⟩ := _decode_value_ceil_bounds B v minv maxv hB hm h1 h2
  exact ⟨_, hEq, hLe, hb1, hb2⟩

/-! ## Claim C1 -/

/-- Claim C1: for every envelope (w,s,e,n) with -180 <= w <= 180, -180 <= e <= 180 and
-90 <= s <= n <= 90, decoding the encoding (with any even positive bits-per-value B,
V = 2^B - 1) yields a rectangle that contains the original: d.w <= w, d.s <= s, d.e >= e,
d.n >= n, with per-coordinate error at most 360/V for the longitudes and 180/V for the
latitudes. -/
theorem C1_decode_encode_conservative (B : ℕ) (w s e n : ℚ)
    (hB : 0 < B) (hBe : B % 2 = 0)
    (hw1 : -180 ≤ w) (hw2 : w ≤ 180) (he1 : -180 ≤ e) (he2 : e ≤ 180)
    (hs1 : -90 ≤ s) (hsn : s ≤ n) (hn2 : n ≤ 90) :
    ∃ bs w' s' e' n',
      encode B (w, s, e, n) = some bs ∧
      decode B bs = some (w', s', e', n') ∧
      w' ≤ w ∧ w - w' ≤ 360 / (VALUE_MAX_INT B : ℚ) ∧
      s' ≤ s ∧ s - s' ≤ 180 / (VALUE_MAX_INT B : ℚ) ∧
      e ≤ e' ∧ e' - e ≤ 360 / (VALUE_MAX_INT B : ℚ) ∧
      n ≤ n' ∧ n' - n ≤ 180 / (VALUE_MAX_INT B : ℚ) := by
  have hs2 : s ≤ 90 := hsn.trans hn2
  have hn1 : -90 ≤ n := hs1.trans hsn
  obtain ⟨iw, hwEq, hwLe, hwB1, hwB2⟩ :=
    encode_decode_value_floor B w (-180) 180 hB (by norm_num) hw1 hw2
  obtain ⟨js, hsEq, hsLe, hsB1, hsB2⟩ :=
    encode_decode_value_floor B s (-90) 90 hB (by norm_num) hs1 hs2
  obtain ⟨ke, heEq, heLe, heB1, heB2⟩ :=
    encode_decode_value_ceil B e (-180) 180 hB (by norm_num) he1 he2
  obtain ⟨ln, hnEq, hnLe, hnB1, hnB2⟩ :=
    encode_decode_value_ceil B n (-90) 90 hB (by norm_num) hn1 hn2
  rw [show ((180 : ℚ) - -180) = 360 by norm_num] at hwB2 heB2
  rw [show ((90 : ℚ) - -90) = 180 by norm_num] at hsB2 hnB2
  have hiw' : iw < 2 ^ B := by
    have h0 := Nat.two_pow_pos B
    unfold VALUE_MAX_INT at hwLe; omega
  have hjs' : js < 2 ^ B := by
    have h0 := Nat.two_pow_pos B
    unfold VALUE_MAX_INT at hsLe; omega
  have hke' : ke < 2 ^ B := by
    have h0 := Nat.two_pow_pos B
    unfold VALUE_MAX_INT at heLe; omega
  have hln' : ln < 2 ^ B := by
    have h0 := Nat.two_pow_pos B
    unfold VALUE_MAX_INT at hnLe; omega
  have hb1 : iw * 2 ^ B + js ≤ 2 ^ (B + B) - 1 := packBound hwLe hsLe
  have hb2 : (iw * 2 ^ B + js) * 2 ^ B + ke ≤ 2 ^ (B + B + B) - 1 := packBound hb1 heLe
  have hb3 : ((iw * 2 ^ B + js) * 2 ^ B + ke) * 2 ^ B + ln ≤ 2 ^ (B + B + B + B) - 1 :=
    packBound hb2 hnLe
  rw [show B + B + B + B = 4 * B by ring] at hb3
  have hor1 : iw <<< B ||| js = iw * 2 ^ B + js := packShiftOr B iw js hsLe
  have hor2 : (iw * 2 ^ B + js) <<< B ||| ke = (iw * 2 ^ B + js) * 2 ^ B + ke :=
    packShiftOr B _ ke heLe
  have hor3 : ((iw * 2 ^ B + js) * 2 ^ B + ke) <<< B ||| ln
      = ((iw * 2 ^ B + js) * 2 ^ B + ke) * 2 ^ B + ln := packShiftOr B _ ln hnLe
  have hIenc : encodeInteger B (w, s, e, n)
      = some (((iw * 2 ^ B + js) * 2 ^ B + ke) * 2 ^ B + ln) := by
    unfold encodeInteger
    rw [if_pos hBe]
    simp only [hwEq, hsEq, heEq, hnEq, hor1, hor2, hor3]
    rw [if_pos hb3]
  have hEnc : encode B (w, s, e, n)
      = some (natToBytesBE (4 * B / 8) (((iw * 2 ^ B + js) * 2 ^ B + ke) * 2 ^ B + ln)) := by
    rw [encode, hIenc]
    rfl
  have hMlt : ((iw * 2 ^ B + js) * 2 ^ B + ke) * 2 ^ B + ln < 2 ^ (4 * B) :=
    lt_of_le_of_lt hb3 (Nat.sub_lt (Nat.two_pow_pos _) Nat.one_pos)
  have hFrom : natFromBytesBE
      (natToBytesBE (4 * B / 8) (((iw * 2 ^ B + js) * 2 ^ B + ke) * 2 ^ B + ln))
      = ((iw * 2 ^ B + js) * 2 ^ B + ke) * 2 ^ B + ln := by
    apply natFromBytesBE_natToBytesBE_of_lt
    rw [bytes_pow_of_even hBe]
    exact hMlt
  have e4a : (((iw * 2 ^ B + js) * 2 ^ B + ke) * 2 ^ B + ln) &&& VALUE_MAX_INT B = ln :=
    extractLowAnd hln'
  have e4b : (((iw * 2 ^ B + js) * 2 ^ B + ke) * 2 ^ B + ln) >>> B
      = (iw * 2 ^ B + js) * 2 ^ B + ke := extractLowShift hln'
  have e3a : ((iw * 2 ^ B + js) * 2 ^ B + ke) &&& VALUE_MAX_INT B = ke := extractLowAnd hke'
  have e3b : ((iw * 2 ^ B + js) * 2 ^ B + ke) >>> B = iw * 2 ^ B + js := extractLowShift hke'
  have e2a : (iw * 2 ^ B + js) &&& VALUE_MAX_INT B = js := extractLowAnd hjs'
  have e2b : (iw * 2 ^ B + js) >>> B = iw := extractLowShift hjs'
  have e1a : iw &&& VALUE_MAX_INT B = iw := selfAnd hwLe
  have hDec : decode B
      (natToBytesBE (4 * B / 8) (((iw * 2 ^ B + js) * 2 ^ B + ke) * 2 ^ B + ln))
      = some (_decode_value B iw (-180) 180, _decode_value B js (-90) 90,
          _decode_value B ke (-180) 180, _decode_value B ln (-90) 90) := by
    unfold decode
    simp only [hFrom]
    rw [if_pos hb3, e4a, e4b, e3a, e3b, e2a, e2b, e1a]
  exact ⟨_, _, _, _, _, hEnc, hDec, hwB1, hwB2, hsB1, hsB2, heB1, heB2, hnB1, hnB2⟩

/-- Witness for C1 at B = 20 and the envelope (-170, -45, 170, 45). -/
theorem C1_decode_encode_conservative_witness :
    ∃ bs w' s' e' n',
      encode 20 (-170, -45, 170, 45) = some bs ∧
      decode 20 bs = some (w', s', e', n') ∧
      w' ≤ -170 ∧ -170 - w' ≤ 360 / (VALUE_MAX_INT 20 : ℚ) ∧
      s' ≤ -45 ∧ -45 - s' ≤ 180 / (VALUE_MAX_INT 20 : ℚ) ∧
      (170 : ℚ) ≤ e' ∧ e' - 170 ≤ 360 / (VALUE_MAX_INT 20 : ℚ) ∧
      (45 : ℚ) ≤ n' ∧ n' - 45 ≤ 180 / (VALUE_MAX_INT 20 : ℚ) :=
  C1_decode_encode_conservative 20 (-170) (-45) 170 45 (by norm_num) (by norm_num)
    (by norm_num) (by norm_num) (by norm_num) (by norm_num) (by norm_num) (by norm_num)
    (by norm_num)

/-! ## Claims C7 and C9 -/

theorem _encode_value_some_bounds {B : ℕ} {v minv maxv : ℚ} {r : ℚ → ℤ} {k : ℕ}
    (h : _encode_value B v minv maxv r = some k) : minv ≤ v ∧ v ≤ maxv := by
  by_cases hc : minv ≤ v ∧ v ≤ maxv
  · exact hc
  · rw [_encode_value, if_neg hc] at h
    cases h

theorem encodeInteger_some_le {B : ℕ} {env : Envelope} {i : ℕ}
    (hi : encodeInteger B env = some i) : i ≤ 2 ^ (4 * B) - 1 := by
  unfold encodeInteger at hi
  by_cases hBe : B % 2 = 0
  · rw [if_pos hBe] at hi
    rcases h1 : _encode_value B env.1 (-180) 180 Int.floor with _ | iw <;>
      simp only [h1] at hi
    · cases hi
    rcases h2 : _encode_value B env.2.1 (-90) 90 Int.floor with _ | js <;>
      simp only [h2] at hi
    · cases hi
    rcases h3 : _encode_value B env.2.2.1 (-180) 180 Int.ceil with _ | ke <;>
      simp only [h3] at hi
    · cases hi
    rcases h4 : _encode_value B env.2.2.2 (-90) 90 Int.ceil with _ | ln <;>
      simp only [h4] at hi
    · cases hi
    split at hi
    · obtain rfl := Option.some.inj hi
      assumption
    · cases hi
  · rw [if_neg hBe] at hi
    cases hi

/-- Claim C7: for every envelope within bounds ([-180,180] longitudes, [-90,90] latitudes)
and even bits-per-value B, encode raises no assertion failure; the packed integer fits in
4*B bits and the emitted byte string has exactly 4*B/8 bytes (10 bytes for the default
B = 20). An assertion fails (encoding returns none) precisely when some coordinate lies
outside its [min, max] bound. -/
theorem C7_encode_totality (B : ℕ) (env : Envelope) (hBe : B % 2 = 0) :
    (envelopeInBounds env ↔ ∃ i, encodeInteger B env = some i) ∧
    (∀ i, encodeInteger B env = some i →
        i < 2 ^ (4 * B) ∧
        encode B env = some (natToBytesBE (4 * B / 8) i) ∧
        (natToBytesBE (4 * B / 8) i).length = 4 * B / 8) ∧
    (∀ bs, encode 20 env = some bs → bs.length = 10) := by
  refine ⟨⟨?_, ?_⟩, ?_, ?_⟩
  · intro hb
    obtain ⟨hb1, hb2, hb3, hb4, hb5, hb6, hb7, hb8⟩ := hb
    obtain ⟨hwEq, hwLe⟩ := _encode_value_floor B env.1 (-180) 180 (by norm_num) hb1 hb2
    obtain ⟨hsEq, hsLe⟩ := _encode_value_floor B env.2.1 (-90) 90 (by norm_num) hb3 hb4
    obtain ⟨heEq, heLe⟩ := _encode_value_ceil B env.2.2.1 (-180) 180 (by norm_num) hb5 hb6
    obtain ⟨hnEq, hnLe⟩ := _encode_value_ceil B env.2.2.2 (-90) 90 (by norm_num) hb7 hb8
    set iw := (⌊(env.1 - -180) / (180 - -180) * (VALUE_MAX_INT B : ℚ)⌋.toNat)
    set js := (⌊(env.2.1 - -90) / (90 - -90) * (VALUE_MAX_INT B : ℚ)⌋.toNat)
    set ke := (⌈(env.2.2.1 - -180) / (180 - -180) * (VALUE_MAX_INT B : ℚ)⌉.toNat)
    set ln := (⌈(env.2.2.2 - -90) / (90 - -90) * (VALUE_MAX_INT B : ℚ)⌉.toNat)
    have hor1 : iw <<< B ||| js = iw * 2 ^ B + js := packShiftOr B iw js hsLe
    have hor2 : (iw * 2 ^ B + js) <<< B ||| ke = (iw * 2 ^ B + js) * 2 ^ B + ke :=
      packShiftOr B _ ke heLe
    have hor3 : ((iw * 2 ^ B + js) * 2 ^ B + ke) <<< B ||| ln
        = ((iw * 2 ^ B + js) * 2 ^ B + ke) * 2 ^ B + ln := packShiftOr B _ ln hnLe
    have hb1' : iw * 2 ^ B + js ≤ 2 ^ (B + B) - 1 := packBound hwLe hsLe
    have hb2' : (iw * 2 ^ B + js) * 2 ^ B + ke ≤ 2 ^ (B + B + B) - 1 := packBound hb1' heLe
    have hb3' : ((iw * 2 ^ B + js) * 2 ^ B + ke) * 2 ^ B + ln ≤ 2 ^ (B + B + B + B) - 1 :=
      packBound hb2' hnLe
    rw [show B + B + B + B = 4 * B by ring] at hb3'
    refine ⟨((iw * 2 ^ B + js) * 2 ^ B + ke) * 2 ^ B + ln, ?_⟩
    unfold encodeInteger
    rw [if_pos hBe]
    simp only [hwEq, hsEq, heEq, hnEq, hor1, hor2, hor3]
    rw [if_pos hb3']
  · rintro ⟨i, hi⟩
    unfold encodeInteger at hi
    rw [if_pos hBe] at hi
    rcases hw : _encode_value B env.1 (-180) 180 Int.floor with _ | iw <;>
      simp only [hw] at hi
    · cases hi
    rcases hs : _encode_value B env.2.1 (-90) 90 Int.floor with _ | js <;>
      simp only [hs] at hi
    · cases hi
    rcases he : _encode_value B env.2.2.1 (-180) 180 Int.ceil with _ | ke <;>
      simp only [he] at hi
    · cases hi
    rcases hn : _encode_value B env.2.2.2 (-90) 90 Int.ceil with _ | ln <;>
      simp only [hn] at hi
    · cases hi
    obtain ⟨q1, q2⟩ := _encode_value_some_bounds hw
    obtain ⟨q3, q4⟩ := _encode_value_some_bounds hs
    obtain ⟨q5, q6⟩ := _encode_value_some_bounds he
    obtain ⟨q7, q8⟩ := _encode_value_some_bounds hn
    exact ⟨q1, q2, q3, q4, q5, q6, q7, q8⟩
  · intro i hi
    have hle := encodeInteger_some_le hi
    refine ⟨lt_of_le_of_lt hle (Nat.sub_lt (Nat.two_pow_pos _) Nat.one_pos), ?_, ?_⟩
    · rw [encode, hi]
      rfl
    · exact natToBytesBE_length _ _
  · intro bs h
    rw [encode] at h
    rcases hi : encodeInteger 20 env with _ | i <;> rw [hi] at h
    · cases h
    · obtain rfl : natToBytesBE (4 * 20 / 8) i = bs := Option.some.inj h
      rw [natToBytesBE_length]

/-- Witness for C7 at B = 20 and the in-bounds envelope (-170, -45, 170, 45): the encoder
succeeds there. -/
theorem C7_encode_totality_witness :
    ∃ i, encodeInteger 20 (-170, -45, 170, 45) = some i :=
  (C7_encode_totality 20 (-170, -45, 170, 45) rfl).1.mp
    (by constructor <;> norm_num [envelopeInBounds])

/-- Claim C9: the effective bits-per-value used for encoding is the existing envelope
length times 8 divided by 4; when the feature_envelopes table holds no row (empty or
freshly created), the default B = 20 is used. -/
theorem C9_bits_per_value_inference :
    (∀ l : ℕ, l ≠ 0 → effectiveBitsPerValue (some l) = l * 8 / 4) ∧
    effectiveBitsPerValue none = DEFAULT_BITS_PER_VALUE ∧
    DEFAULT_BITS_PER_VALUE = 20 := by
  refine ⟨?_, rfl, rfl⟩
  intro l hl
  simp [effectiveBitsPerValue, hl]

/-- Witness for C9 on a database whose stored envelopes are 10 bytes long. -/
theorem C9_bits_per_value_inference_witness :
    effectiveBitsPerValue (some 10) = 10 * 8 / 4 :=
  C9_bits_per_value_inference.1 10 (by norm_num)

/-! ## Frontier resolution (commit-set bookkeeping) -/

/-- Commit ids, abstracted as naturals. -/
abbrev CommitId := ℕ

/-- The state of the feature_envelopes.db file that an indexing run manipulates: the
commits table (none when the table does not exist) and the feature_envelopes rows
(blob id with encoded envelope bytes). -/
structure DbState where
  commitsTable : Option (Finset CommitId)
  envelopes : Finset (CommitId × List ℕ)
deriving DecidableEq

/-- The abstracted bulk of the indexing loop: how the feature_envelopes rows change,
as a function of the resolved start set, stop set and the prior rows. -/
abbrev IndexWrites :=
  Finset CommitId → Finset CommitId → Finset (CommitId × List ℕ) → Finset (CommitId × List ℕ)

/-- Semantics of the external `git merge-base independent` call that
_minimal_description_of_commit_set delegates to, over an explicit strict-ancestor
relation (anc c d meaning c is a proper ancestor of d): the given commits minus those
that are ancestors of other members of the set. -/
def minimalDescriptionOfCommitSet (anc : CommitId → CommitId → Bool)
    (s : Finset CommitId) : Finset CommitId :=
  s.filter fun c => ¬ ∃ d ∈ s, d ≠ c ∧ anc c d = true

/-- _build_on_last_index: the stop commits are those already recorded in the commits
table (none when clear_existing is set or the table is absent); the antichain
computation is delegated (mdesc); returns (start minus stop, stop, all independent
commits). -/
def _build_on_last_index (mdesc : Finset CommitId → Finset CommitId)
    (startCommits : Finset CommitId) (st : DbState) (clearExisting : Bool) :
    Finset CommitId × Finset CommitId × Finset CommitId :=
  let stopCommits : Finset CommitId :=
    if clearExisting then ∅
    else
      match st.commitsTable with
      | none => ∅
      | some rows => rows
  let allIndependentCommits := mdesc (startCommits ∪ stopCommits)
  (allIndependentCommits \ stopCommits, stopCommits, allIndependentCommits)

/-- update_spatial_filter_index on the database state. When the resolved start set is
empty the function returns before touching the database. Otherwise the tables are
(re)created (dropped first under clear_existing), the feature upserts run (abstracted
as indexWrites), and the commits table is rewritten to hold exactly the independent
commits. -/
def update_spatial_filter_index (mdesc : Finset CommitId → Finset CommitId)
    (indexWrites : IndexWrites) (commits : Finset CommitId) (st : DbState)
    (clearExisting : Bool) : DbState :=
  let r := _build_on_last_index mdesc commits st clearExisting
  if r.1 = ∅ then st
  else
    { commitsTable := some r.2.2
      envelopes := indexWrites r.1 r.2.1 (if clearExisting then ∅ else st.envelopes) }

/-- The ancestor relation is transitive. -/
def AncTransitive (anc : CommitId → CommitId → Bool) : Prop :=
  ∀ a b c, anc a b = true → anc b c = true → anc a c = true

/-- The strict ancestor relation is irreflexive (the commit graph is acyclic). -/
def AncIrreflexive (anc : CommitId → CommitId → Bool) : Prop :=
  ∀ a, anc a a = false

theorem exists_dominating_aux (anc : CommitId → CommitId → Bool)
    (ht : AncTransitive anc) (hirr : AncIrreflexive anc) (s : Finset CommitId) :
    ∀ fuel x, x ∈ s → (s.filter fun y => anc x y = true).card ≤ fuel →
      ∃ m ∈ minimalDescriptionOfCommitSet anc s, x = m ∨ anc x m = true := by
  intro fuel
  induction fuel with
  | zero =>
    intro x hx hcard
    by_cases hm : x ∈ minimalDescriptionOfCommitSet anc s
    · exact ⟨x, hm, Or.inl rfl⟩
    · exfalso
      rw [minimalDescriptionOfCommitSet, Finset.mem_filter] at hm
      push_neg at hm
      obtain ⟨d, hd, hdne, hanc⟩ := hm hx
      have hdmem : d ∈ s.filter fun y => anc x y = true := Finset.mem_filter.mpr ⟨hd, hanc⟩
      have hpos := Finset.card_pos.mpr ⟨d, hdmem⟩
      omega
  | succ k ih =>
    intro x hx hcard
    by_cases hm : x ∈ minimalDescriptionOfCommitSet anc s
    · exact ⟨x, hm, Or.inl rfl⟩
    · rw [minimalDescriptionOfCommitSet, Finset.mem_filter] at hm
      push_neg at hm
      obtain ⟨d, hd, hdne, hanc⟩ := hm hx
      have hsub : (s.filter fun y => anc d y = true) ⊆ s.filter fun y => anc x y = true := by
        intro y hy
        rw [Finset.mem_filter] at hy ⊢
        exact ⟨hy.1, ht x d y hanc hy.2⟩
      have hdmem : d ∈ s.filter fun y => anc x y = true := Finset.mem_filter.mpr ⟨hd, hanc⟩
      have hdnot : d ∉ s.filter fun y => anc d y = true := by
        rw [Finset.mem_filter]
        rintro ⟨-, habs⟩
        rw [hirr d] at habs
        cases habs
      have hlt : (s.filter fun y => anc d y = true).card
          < (s.filter fun y => anc x y = true).card :=
        Finset.card_lt_card ((Finset.ssubset_iff_of_subset hsub).mpr ⟨d, hdmem, hdnot⟩)
      obtain ⟨m, hmmem, hmor⟩ := ih d hd (by omega)
      refine ⟨m, hmmem, Or.inr ?_⟩
      rcases hmor with rfl | hdm
      · exact hanc
      · exact ht x d m hanc hdm

theorem exists_dominating (anc : CommitId → CommitId → Bool)
    (ht : AncTransitive anc) (hirr : AncIrreflexive anc) (s : Finset CommitId)
    {x : CommitId} (hx : x ∈ s) :
    ∃ m ∈ minimalDescriptionOfCommitSet anc s, x = m ∨ anc x m = true :=
  exists_dominating_aux anc ht hirr s _ x hx le_rfl

/-- Re-running mdesc after adjoining its own output to the start set adds nothing new:
the key fact behind idempotent indexing. -/
theorem mdesc_absorb (anc : CommitId → CommitId → Bool)
    (ht : AncTransitive anc) (hirr : AncIrreflexive anc) (c s : Finset CommitId) :
    minimalDescriptionOfCommitSet anc (c ∪ minimalDescriptionOfCommitSet anc (c ∪ s))
      \ minimalDescriptionOfCommitSet anc (c ∪ s) = ∅ := by
  rw [Finset.sdiff_eq_empty_iff_subset]
  intro x hxmem
  rw [minimalDescriptionOfCommitSet, Finset.mem_filter] at hxmem
  obtain ⟨hxin, hxnd⟩ := hxmem
  rcases Finset.mem_union.mp hxin with hxc | hxM
  · by_contra hxnotM
    obtain ⟨m, hmM, hmor⟩ :=
      exists_dominating anc ht hirr (c ∪ s) (Finset.mem_union_left s hxc)
    rcases hmor with rfl | hxm
    · exact hxnotM hmM
    · apply hxnd
      refine ⟨m, Finset.mem_union_right c hmM, ?_, hxm⟩
      rintro rfl
      rw [hirr m] at hxm
      cases hxm
  · exact hxM

/-! ## Claims C2 and C3 -/

/-- Claim C2: the stop set is empty when clear_existing is set or the commits table is
absent, and otherwise equals the rows of the commits table; the effective start set is
MinimalAntichain(start union stop) minus stop; an empty effective start set makes the run
a no-op that leaves the database unchanged; otherwise the persisted frontier is
MinimalAntichain(start union stop). -/
theorem C2_frontier_resolution (mdesc : Finset CommitId → Finset CommitId)
    (indexWrites : IndexWrites) (commits : Finset CommitId) (st : DbState)
    (clearExisting : Bool) :
    ((_build_on_last_index mdesc commits st clearExisting).2.1
        = if clearExisting = true ∨ st.commitsTable = none then ∅
          else st.commitsTable.getD ∅) ∧
    ((_build_on_last_index mdesc commits st clearExisting).1
        = mdesc (commits ∪ (_build_on_last_index mdesc commits st clearExisting).2.1)
            \ (_build_on_last_index mdesc commits st clearExisting).2.1) ∧
    ((_build_on_last_index mdesc commits st clearExisting).1 = ∅ →
      update_spatial_filter_index mdesc indexWrites commits st clearExisting = st) ∧
    ((_build_on_last_index mdesc commits st clearExisting).1 ≠ ∅ →
      (update_spatial_filter_index mdesc indexWrites commits st clearExisting).commitsTable
        = some (mdesc
            (commits ∪ (_build_on_last_index mdesc commits st clearExisting).2.1))) := by
  refine ⟨?_, rfl, ?_, ?_⟩
  · cases clearExisting <;> rcases hct : st.commitsTable with _ | rows <;>
      simp [_build_on_last_index, hct]
  · intro h
    simp only [update_spatial_filter_index]
    rw [if_pos h]
  · intro h
    simp only [update_spatial_filter_index]
    rw [if_neg h]
    rfl

/-- Witness for C2: a first run over commit 0 on an empty database persists the
frontier mdesc({0}). -/
theorem C2_frontier_resolution_witness :
    (update_spatial_filter_index (fun t => t) (fun _ _ envs => envs) {0}
        ⟨none, ∅⟩ false).commitsTable
      = some ((fun t => t) (({0} : Finset CommitId)
          ∪ (_build_on_last_index (fun t => t) ({0} : Finset CommitId)
              ⟨none, ∅⟩ false).2.1)) :=
  (C2_frontier_resolution (fun t => t) (fun _ _ envs => envs) {0} ⟨none, ∅⟩
      false).2.2.2 (by decide)

/-- Claim C3: indexing the same commit set twice leaves the database unchanged after the
second run: the second run resolves an empty effective start set and is a no-op. Stated
over any transitive irreflexive ancestor relation (the commit DAG). -/
theorem C3_index_idempotent (anc : CommitId → CommitId → Bool)
    (ht : AncTransitive anc) (hirr : AncIrreflexive anc)
    (indexWrites : IndexWrites) (commits : Finset CommitId) (st : DbState) :
    (_build_on_last_index (minimalDescriptionOfCommitSet anc) commits
        (update_spatial_filter_index (minimalDescriptionOfCommitSet anc) indexWrites
          commits st false) false).1 = ∅ ∧
    update_spatial_filter_index (minimalDescriptionOfCommitSet anc) indexWrites commits
        (update_spatial_filter_index (minimalDescriptionOfCommitSet anc) indexWrites
          commits st false) false
      = update_spatial_filter_index (minimalDescriptionOfCommitSet anc) indexWrites
          commits st false := by
  by_cases h1 : (_build_on_last_index (minimalDescriptionOfCommitSet anc) commits st
      false).1 = ∅
  · have hst : update_spatial_filter_index (minimalDescriptionOfCommitSet anc)
        indexWrites commits st false = st := by
      simp only [update_spatial_filter_index]
      rw [if_pos h1]
    rw [hst]
    exact ⟨h1, hst⟩
  · have hct : (update_spatial_filter_index (minimalDescriptionOfCommitSet anc)
        indexWrites commits st false).commitsTable
        = some (minimalDescriptionOfCommitSet anc (commits ∪
            (_build_on_last_index (minimalDescriptionOfCommitSet anc) commits st
              false).2.1)) := by
      simp only [update_spatial_filter_index]
      rw [if_neg h1]
      rfl
    have hb2 : (_build_on_last_index (minimalDescriptionOfCommitSet anc) commits
        (update_spatial_filter_index (minimalDescriptionOfCommitSet anc) indexWrites
          commits st false) false).1
        = minimalDescriptionOfCommitSet anc (commits ∪
            minimalDescriptionOfCommitSet anc (commits ∪
              (_build_on_last_index (minimalDescriptionOfCommitSet anc) commits st
                false).2.1))
          \ minimalDescriptionOfCommitSet anc (commits ∪
              (_build_on_last_index (minimalDescriptionOfCommitSet anc) commits st
                false).2.1) := by
      simp only [_build_on_last_index, hct]
      rfl
    have hempty := mdesc_absorb anc ht hirr commits
      (_build_on_last_index (minimalDescriptionOfCommitSet anc) commits st false).2.1
    have hstart2 := hb2.trans hempty
    refine ⟨hstart2, ?_⟩
    conv_lhs => rw [update_spatial_filter_index]
    rw [if_pos hstart2]

/-- Witness for C3 on a one-commit graph with the empty ancestor relation. -/
theorem C3_index_idempotent_witness :
    (_build_on_last_index (minimalDescriptionOfCommitSet fun _ _ => false) {0}
        (update_spatial_filter_index (minimalDescriptionOfCommitSet fun _ _ => false)
          (fun _ _ envs => envs) {0} ⟨none, ∅⟩ false) false).1 = ∅ ∧
    update_spatial_filter_index (minimalDescriptionOfCommitSet fun _ _ => false)
        (fun _ _ envs => envs) {0}
        (update_spatial_filter_index (minimalDescriptionOfCommitSet fun _ _ => false)
          (fun _ _ envs => envs) {0} ⟨none, ∅⟩ false) false
      = update_spatial_filter_index (minimalDescriptionOfCommitSet fun _ _ => false)
          (fun _ _ envs => envs) {0} ⟨none, ∅⟩ false :=
  C3_index_idempotent (fun _ _ => false)
    (fun _ _ _ h _ => h) (fun _ => rfl) (fun _ _ envs => envs) {0} ⟨none, ∅⟩

/-! ## Longitude wrapping and union_of_envelopes -/

/-- _unwrap_lon_envelope: keep w, let e exceed w by the true size of the range. -/
def _unwrap_lon_envelope (w e : ℚ) : ℚ × ℚ := if w ≤ e then (w, e) else (w, e + 360)

/-- _wrap_lon: `(x + 180) % 360 - 180`. Python float modulo with a positive modulus is
`a - 360 * floor(a / 360)`. -/
def _wrap_lon (x : ℚ) : ℚ := ((x + 180) - 360 * ((⌊(x + 180) / 360⌋ : ℤ) : ℚ)) - 180

/-- math.isclose with the given relative and absolute tolerances. -/
def isClose (a b relTol absTol : ℚ) : Prop := |a - b| ≤ max (relTol * max |a| |b|) absTol

instance (a b r t : ℚ) : Decidable (isClose a b r t) := by unfold isClose; infer_instance

/-- _wrap_lon_envelope: wrap both endpoints; the lower wrapped value becomes w unless
wrapping inverted the range, detected by comparing the wrapped width with the original
width via math.isclose(..., abs_tol=1e-3) (rel_tol keeps Python's default 1e-9), in
which case the endpoints are swapped. -/
def _wrap_lon_envelope (w e : ℚ) : ℚ × ℚ :=
  let wrappedW := _wrap_lon w
  let wrappedE := _wrap_lon e
  let minX := min wrappedW wrappedE
  let maxX := max wrappedW wrappedE
  if isClose (maxX - minX) (e - w) (1 / 10 ^ 9) (1 / 1000) then (minX, maxX)
  else (maxX, minX)

/-- One candidate of union_of_envelopes' loop: (width, w, e) for envelope 2 shifted by
the given amount. -/
def unionCandidate (w1 e1 w2 e2 shift : ℚ) : ℚ × ℚ × ℚ :=
  (max e1 (e2 + shift) - min w1 (w2 + shift), min w1 (w2 + shift), max e1 (e2 + shift))

/-- The loop of union_of_envelopes: try the shifts -360, 0, 360 in order, keeping a
candidate exactly when its width is strictly below the best so far (initially INF, so
the first candidate always replaces it). -/
def unionShiftChoice (w1 e1 w2 e2 : ℚ) : ℚ × ℚ × ℚ :=
  let c1 := unionCandidate w1 e1 w2 e2 (-360)
  let c2 := unionCandidate w1 e1 w2 e2 0
  let c3 := unionCandidate w1 e1 w2 e2 360
  let b2 := if c2.1 < c1.1 then c2 else c1
  if c3.1 < b2.1 then c3 else b2

/-- union_of_envelopes: None is passed through; otherwise unwrap both longitude ranges,
pick the shift of envelope 2 minimising the union width, take (min s, max n) for
latitude, return the full band when the width reaches 360 and otherwise rewrap. -/
def union_of_envelopes (env1 env2 : Option Envelope) : Option Envelope :=
  match env1, env2 with
  | none, _ => env2
  | some _, none => env1
  | some a, some b =>
    let u1 := _unwrap_lon_envelope a.1 a.2.2.1
    let u2 := _unwrap_lon_envelope b.1 b.2.2.1
    let ch := unionShiftChoice u1.1 u1.2 u2.1 u2.2
    let resultS := min a.2.1 b.2.1
    let resultN := max a.2.2.2 b.2.2.2
    if 360 ≤ ch.1 then some (-180, resultS, 180, resultN)
    else
      let wrapped := _wrap_lon_envelope ch.2.1 ch.2.2
      some (wrapped.1, resultS, wrapped.2, resultN)

/-- The smallest union width over the three shifts, for both envelopes unwrapped. -/
def minUnionWidth (a b : Envelope) : ℚ :=
  let u1 := _unwrap_lon_envelope a.1 a.2.2.1
  let u2 := _unwrap_lon_envelope b.1 b.2.2.1
  min (min (unionCandidate u1.1 u1.2 u2.1 u2.2 (-360)).1
      (unionCandidate u1.1 u1.2 u2.1 u2.2 0).1)
    (unionCandidate u1.1 u1.2 u2.1 u2.2 360).1

theorem unionShiftChoice_width (w1 e1 w2 e2 : ℚ) :
    (unionShiftChoice w1 e1 w2 e2).1
      = min (min (unionCandidate w1 e1 w2 e2 (-360)).1 (unionCandidate w1 e1 w2 e2 0).1)
          (unionCandidate w1 e1 w2 e2 360).1 := by
  simp only [unionShiftChoice]
  split_ifs <;> simp_all [min_def] <;> split_ifs <;> linarith

theorem unionShiftChoice_mem (w1 e1 w2 e2 : ℚ) :
    ∃ shift : ℚ, (shift = -360 ∨ shift = 0 ∨ shift = 360) ∧
      unionShiftChoice w1 e1 w2 e2 = unionCandidate w1 e1 w2 e2 shift := by
  simp only [unionShiftChoice]
  split_ifs
  · exact ⟨360, Or.inr (Or.inr rfl), rfl⟩
  · exact ⟨0, Or.inr (Or.inl rfl), rfl⟩
  · exact ⟨360, Or.inr (Or.inr rfl), rfl⟩
  · exact ⟨-360, Or.inl rfl, rfl⟩

/-! ## Claims C4, C5 and C10 -/

/-- Claim C10: None is an identity element of union_of_envelopes; the other envelope is
returned as is, with no wrapping, shifting or widening applied. -/
theorem C10_union_none_identity (env : Envelope) :
    union_of_envelopes none (some env) = some env ∧
    union_of_envelopes (some env) none = some env :=
  ⟨rfl, rfl⟩

/-- Claim C4: when the minimal-width union of the two unwrapped longitude intervals has
width at least 360, union_of_envelopes returns the full band (-180, min s, 180, max n);
in particular union_of_envelopes((-170,0,170,10), (160,0,-160,10)) = (-180,0,180,10). -/
theorem C4_full_band_collapse :
    (∀ a b : Envelope, 360 ≤ minUnionWidth a b →
      union_of_envelopes (some a) (some b)
        = some (-180, min a.2.1 b.2.1, 180, max a.2.2.2 b.2.2.2)) ∧
    union_of_envelopes (some (-170, 0, 170, 10)) (some (160, 0, -160, 10))
      = some (-180, 0, 180, 10) := by
  have hgen : ∀ a b : Envelope, 360 ≤ minUnionWidth a b →
      union_of_envelopes (some a) (some b)
        = some (-180, min a.2.1 b.2.1, 180, max a.2.2.2 b.2.2.2) := by
    intro a b h
    simp only [minUnionWidth] at h
    simp only [union_of_envelopes]
    rw [if_pos (by rw [unionShiftChoice_width]; exact h)]
  refine ⟨hgen, ?_⟩
  have h2 := hgen (-170, 0, 170, 10) (160, 0, -160, 10)
    (by norm_num [minUnionWidth, _unwrap_lon_envelope, unionCandidate, min_def, max_def])
  rw [h2]
  norm_num

/-- Witness for C4 at the S3 scenario: the second envelope wraps, one shift produces
width at least 360, and the union collapses to the full band. -/
theorem C4_full_band_collapse_witness :
    union_of_envelopes (some (-170, 0, 170, 10)) (some (160, 0, -160, 10))
      = some (-180, min (0 : ℚ) 0, 180, max (10 : ℚ) 10) :=
  C4_full_band_collapse.1 (-170, 0, 170, 10) (160, 0, -160, 10)
    (by norm_num [minUnionWidth, _unwrap_lon_envelope, unionCandidate, min_def, max_def])

/-- Claim C5: union_of_envelopes unwraps both longitude intervals, considers the second
shifted by -360, 0 and +360, picks the shift minimising the combined width, takes
(min s, max n) for latitude and rewraps; in particular the union of the
antimeridian-crossing envelope (179.5, -10, -179.5, 10) with (170, -10, 175, 10) is
(170, -10, -179.5, 10). -/
theorem C5_shift_selection :
    (∀ a b : Envelope,
      (unionShiftChoice (_unwrap_lon_envelope a.1 a.2.2.1).1
          (_unwrap_lon_envelope a.1 a.2.2.1).2 (_unwrap_lon_envelope b.1 b.2.2.1).1
          (_unwrap_lon_envelope b.1 b.2.2.1).2).1
        = minUnionWidth a b) ∧
    (∀ w1 e1 w2 e2 : ℚ, ∃ shift : ℚ, (shift = -360 ∨ shift = 0 ∨ shift = 360) ∧
      unionShiftChoice w1 e1 w2 e2 = unionCandidate w1 e1 w2 e2 shift) ∧
    (∀ a b : Envelope, minUnionWidth a b < 360 →
      union_of_envelopes (some a) (some b)
        = some ((_wrap_lon_envelope
              (unionShiftChoice (_unwrap_lon_envelope a.1 a.2.2.1).1
                (_unwrap_lon_envelope a.1 a.2.2.1).2 (_unwrap_lon_envelope b.1 b.2.2.1).1
                (_unwrap_lon_envelope b.1 b.2.2.1).2).2.1
              (unionShiftChoice (_unwrap_lon_envelope a.1 a.2.2.1).1
                (_unwrap_lon_envelope a.1 a.2.2.1).2 (_unwrap_lon_envelope b.1 b.2.2.1).1
                (_unwrap_lon_envelope b.1 b.2.2.1).2).2.2).1,
            min a.2.1 b.2.1,
            (_wrap_lon_envelope
              (unionShiftChoice (_unwrap_lon_envelope a.1 a.2.2.1).1
                (_unwrap_lon_envelope a.1 a.2.2.1).2 (_unwrap_lon_envelope b.1 b.2.2.1).1
                (_unwrap_lon_envelope b.1 b.2.2.1).2).2.1
              (unionShiftChoice (_unwrap_lon_envelope a.1 a.2.2.1).1
                (_unwrap_lon_envelope a.1 a.2.2.1).2 (_unwrap_lon_envelope b.1 b.2.2.1).1
                (_unwrap_lon_envelope b.1 b.2.2.1).2).2.2).2,
            max a.2.2.2 b.2.2.2)) ∧
    union_of_envelopes (some (359 / 2, -10, -359 / 2, 10)) (some (170, -10, 175, 10))
      = some (170, -10, -359 / 2, 10) := by
  refine ⟨?_, unionShiftChoice_mem, ?_, ?_⟩
  · intro a b
    exact unionShiftChoice_width _ _ _ _
  · intro a b h
    simp only [minUnionWidth] at h
    simp only [union_of_envelopes]
    rw [if_neg (by rw [unionShiftChoice_width]; exact not_le.mpr h)]
  · norm_num [union_of_envelopes, _unwrap_lon_envelope, unionShiftChoice, unionCandidate,
      _wrap_lon_envelope, _wrap_lon, isClose, min_def, max_def, abs_of_nonneg]

/-- Witness for C5: the S2 antimeridian union evaluated through the general shape. -/
theorem C5_shift_selection_witness :
    union_of_envelopes (some ((359 / 2 : ℚ), -20, -359 / 2, 20)) (some (160, -10, 165, 10))
      = some ((_wrap_lon_envelope
            (unionShiftChoice (_unwrap_lon_envelope (359 / 2 : ℚ) (-359 / 2)).1
              (_unwrap_lon_envelope (359 / 2 : ℚ) (-359 / 2)).2
              (_unwrap_lon_envelope (160 : ℚ) 165).1
              (_unwrap_lon_envelope (160 : ℚ) 165).2).2.1
            (unionShiftChoice (_unwrap_lon_envelope (359 / 2 : ℚ) (-359 / 2)).1
              (_unwrap_lon_envelope (359 / 2 : ℚ) (-359 / 2)).2
              (_unwrap_lon_envelope (160 : ℚ) 165).1
              (_unwrap_lon_envelope (160 : ℚ) 165).2).2.2).1,
          min (-20 : ℚ) (-10),
          (_wrap_lon_envelope
            (unionShiftChoice (_unwrap_lon_envelope (359 / 2 : ℚ) (-359 / 2)).1
              (_unwrap_lon_envelope (359 / 2 : ℚ) (-359 / 2)).2
              (_unwrap_lon_envelope (160 : ℚ) 165).1
              (_unwrap_lon_envelope (160 : ℚ) 165).2).2.1
            (unionShiftChoice (_unwrap_lon_envelope (359 / 2 : ℚ) (-359 / 2)).1
              (_unwrap_lon_envelope (359 / 2 : ℚ) (-359 / 2)).2
              (_unwrap_lon_envelope (160 : ℚ) 165).1
              (_unwrap_lon_envelope (160 : ℚ) 165).2).2.2).2,
          max (20 : ℚ) 10) :=
  C5_shift_selection.2.2.1 ((359 / 2 : ℚ), -20, -359 / 2, 20) (160, -10, 165, 10)
    (by norm_num [minUnionWidth, _unwrap_lon_envelope, unionCandidate, min_def, max_def])

/-! ## Rings, winding order and transform_minmax_envelope -/

/-- A coordinate transform to EPSG:4326, applied pointwise; may raise (the osgeo
transform object is external to the engine). -/
abbrev TransformFn := ℚ × ℚ → Except Unit (ℚ × ℚ)

/-- The external ring.Segmentize operation: given a maximum segment length, insert
points into a ring. OGR is external, so any function of this type is admissible. -/
abbrev SegmentizeFn := ℚ → List (ℚ × ℚ) → List (ℚ × ℚ)

/-- _transpose_gpkg_or_ogr_envelope: (min-x, max-x, min-y, max-y) to
(min-x, min-y, max-x, max-y). -/
def _transpose_gpkg_or_ogr_envelope (env : ℚ × ℚ × ℚ × ℚ) : MinMaxEnvelope :=
  (env.1, env.2.2.1, env.2.1, env.2.2.2)

/-- get_ogr_envelope of a ring: OGR GetEnvelope yields (min-x, max-x, min-y, max-y)
over the ring's points, which is transposed to (min-x, min-y, max-x, max-y). Our rings
are never empty (OGR would return zeros). -/
def get_ogr_envelope : List (ℚ × ℚ) → MinMaxEnvelope
  | [] => (0, 0, 0, 0)
  | p :: rest =>
    rest.foldl (fun acc q =>
        (min acc.1 q.1, min acc.2.1 q.2, max acc.2.2.1 q.1, max acc.2.2.2 q.2))
      (p.1, p.2, p.1, p.2)

/-- _minmax_envelope_dimensions: (width, height). -/
def _minmax_envelope_dimensions (env : MinMaxEnvelope) : ℚ × ℚ :=
  (env.2.2.1 - env.1, env.2.2.2 - env.2.1)

/-- anticlockwise_ring_from_minmax_envelope: a five-vertex ring travelling
anticlockwise from (min-x, min-y), optionally segmentized with the computed segment
length. -/
def anticlockwise_ring_from_minmax_envelope (segmentize : SegmentizeFn)
    (env : MinMaxEnvelope) (segmentsPerSide : Option ℕ) : List (ℚ × ℚ) :=
  let ring : List (ℚ × ℚ) :=
    [(env.1, env.2.1), (env.2.2.1, env.2.1), (env.2.2.1, env.2.2.2),
      (env.1, env.2.2.2), (env.1, env.2.1)]
  match segmentsPerSide with
  | none => ring
  | some k =>
    let dims := _minmax_envelope_dimensions env
    let largerSide := max dims.1 dims.2
    let smallerSide := min dims.1 dims.2
    let segmentLength :=
      if smallerSide < largerSide / 4 then largerSide / (k : ℚ) else smallerSide / (k : ℚ)
    segmentize segmentLength ring

/-- The shoelace sum over consecutive vertices of a ring. -/
def shoelaceSum : List (ℚ × ℚ) → ℚ
  | p :: q :: rest => (p.1 * q.2 - q.1 * p.2) + shoelaceSum (q :: rest)
  | _ => 0

/-- _is_clockwise: the shoelace sum over the ring is negative. -/
def _is_clockwise (ring : List (ℚ × ℚ)) : Bool := decide (shoelaceSum ring < 0)

/-- _is_anticlockwise. -/
def _is_anticlockwise (ring : List (ℚ × ℚ)) : Bool := ! _is_clockwise ring

/-- _reinterpret_to_be_east_of: add 360 degrees to every point west of split_x. -/
def _reinterpret_to_be_east_of (splitX : ℚ) (ring : List (ℚ × ℚ)) : List (ℚ × ℚ) :=
  ring.map fun p => if p.1 < splitX then (p.1 + 360, p.2) else p

/-- sorted(set(ring x values)). -/
def sortedUniqueXs (ring : List (ℚ × ℚ)) : List ℚ :=
  (ring.map Prod.fst).toFinset.sort (· ≤ ·)

/-- The split candidates: midpoints of consecutive sorted unique x values, computed
once from the ring as passed in. -/
def splitXOptions (ring : List (ℚ × ℚ)) : List ℚ :=
  List.zipWith (fun a b => (a + b) / 2) (sortedUniqueXs ring) (sortedUniqueXs ring).tail

/-- The loop of _fix_ring_winding_order: try each split in turn; the ring is mutated in
place, so each iteration reinterprets the ring produced by the previous one. When no
split works the AssertionError is modelled as .error. -/
def fixRingLoop : List ℚ → List (ℚ × ℚ) → Except Unit (ℚ × List (ℚ × ℚ))
  | [], _ => .error ()
  | sx :: rest, ring =>
    let ring1 := _reinterpret_to_be_east_of sx ring
    if _is_anticlockwise ring1 then .ok (sx, ring1) else fixRingLoop rest ring1

/-- _fix_ring_winding_order: shift points eastwards by 360 degrees until the winding
order is anticlockwise; returns the split (none when no shifting was needed) together
with the resulting ring (the source mutates the ring in place). -/
def _fix_ring_winding_order (ring : List (ℚ × ℚ)) :
    Except Unit (Option ℚ × List (ℚ × ℚ)) :=
  if _is_anticlockwise ring then .ok (none, ring)
  else (fixRingLoop (splitXOptions ring) ring).map fun r => (some r.1, r.2)

/-- _buffer_minmax_envelope: pad all sides, clamping latitude to [-90, 90]. -/
def _buffer_minmax_envelope (env : MinMaxEnvelope) (buffer : ℚ) : MinMaxEnvelope :=
  (env.1 - buffer, max (env.2.1 - buffer) (-90), env.2.2.1 + buffer,
    min (env.2.2.2 + buffer) 90)

/-- The first stage of transform_minmax_envelope on a non-point envelope: build the
ring, transform it pointwise, and apply the winding-order fix when the transformed
envelope is at least 180 degrees wide and the ring came out clockwise. Returns the
split x, the (possibly fixed) ring and its envelope. -/
def ringStage (segmentize : SegmentizeFn) (T : TransformFn) (env : MinMaxEnvelope) :
    Except Unit (Option ℚ × List (ℚ × ℚ) × MinMaxEnvelope) :=
  match (anticlockwise_ring_from_minmax_envelope segmentize env none).mapM T with
  | .error u => .error u
  | .ok ring =>
    let te := get_ogr_envelope ring
    let dims := _minmax_envelope_dimensions te
    if 180 ≤ dims.1 ∧ _is_clockwise ring = true then
      match _fix_ring_winding_order ring with
      | .error u => .error u
      | .ok (sx, ring1) => .ok (sx, ring1, get_ogr_envelope ring1)
    else .ok (none, ring, te)

/-- transform_minmax_envelope: point envelopes are transformed directly and wrapped;
otherwise the ring is transformed and its winding order fixed when needed, none is
returned when the envelope is still at least 180 degrees wide, the curvature buffer is
applied when requested, and the longitudes are wrapped back into [-180, 180]. -/
def transform_minmax_envelope (segmentize : SegmentizeFn) (T : TransformFn)
    (env : MinMaxEnvelope) (bufferForCurvature : Bool) :
    Except Unit (Option Envelope) :=
  if env.1 = env.2.2.1 ∧ env.2.1 = env.2.2.2 then
    match T (env.1, env.2.1) with
    | .error u => .error u
    | .ok p => .ok (some (_wrap_lon p.1, p.2, _wrap_lon p.1, p.2))
  else
    match ringStage segmentize T env with
    | .error u => .error u
    | .ok (sx, _fixedRing, te) =>
      let dims := _minmax_envelope_dimensions te
      if 180 ≤ dims.1 then .ok none
      else
        let bufferedResult : Except Unit MinMaxEnvelope :=
          if bufferForCurvature then
            let biggestDimension := max dims.1 dims.2
            if biggestDimension < 1 then
              .ok (_buffer_minmax_envelope te ((1 / 10) * biggestDimension))
            else
              let segmentsPerSide := (max 10 ⌈biggestDimension⌉).toNat
              match (anticlockwise_ring_from_minmax_envelope segmentize env
                  (some segmentsPerSide)).mapM T with
              | .error u => .error u
              | .ok ring2 =>
                let ring3 :=
                  match sx with
                  | some splitX => _reinterpret_to_be_east_of splitX ring2
                  | none => ring2
                .ok (_buffer_minmax_envelope (get_ogr_envelope ring3) (1 / 10))
          else .ok te
        match bufferedResult with
        | .error u => .error u
        | .ok te2 => .ok (some (_wrap_lon te2.1, te2.2.1, _wrap_lon te2.2.2.1, te2.2.2.2))

/-- One transform as used by get_envelope_for_indexing, together with the external
Segmentize behaviour of the rings it is applied to. -/
structure TransformModel where
  T : TransformFn
  segmentize : SegmentizeFn

/-- The loop of get_envelope_for_indexing: each transform's envelope is unioned into
the running result; a transform yielding none returns none at once; an exception
anywhere is caught by the surrounding try and also yields none. -/
def getEnvelopeLoop : List TransformModel → Option Envelope → MinMaxEnvelope → Option Envelope
  | [], result, _ => result
  | t :: rest, result, mm =>
    match transform_minmax_envelope t.segmentize t.T mm true with
    | .error _ => none
    | .ok none => none
    | .ok (some envT) => getEnvelopeLoop rest (union_of_envelopes result (some envT)) mm

/-- get_envelope_for_indexing: the geometry's envelope extraction (external, may raise,
in gpkg axis order) is transposed and every transform applied; any exception or any
transform yielding none makes the whole call return none — the feature is skipped and
nothing propagates to the caller. -/
def get_envelope_for_indexing (geomEnvelope : Except Unit (ℚ × ℚ × ℚ × ℚ))
    (transforms : List TransformModel) : Option Envelope :=
  match geomEnvelope with
  | .error _ => none
  | .ok ge => getEnvelopeLoop transforms none (_transpose_gpkg_or_ogr_envelope ge)

/-! ## Claims C8 and C6 -/

/-- Claim C8: for every minmax envelope with min_x < max_x and min_y < max_y, the
five-vertex ring built from it is closed (first point equals last point) and is
anticlockwise under the shoelace test; and the winding test classifies a ring as
clockwise exactly when the shoelace sum over its vertices is negative. -/
theorem C8_anticlockwise_ring (segmentize : SegmentizeFn) (env : MinMaxEnvelope)
    (hx : env.1 < env.2.2.1) (hy : env.2.1 < env.2.2.2) :
    ((anticlockwise_ring_from_minmax_envelope segmentize env none).head?
        = (anticlockwise_ring_from_minmax_envelope segmentize env none).getLast? ∧
      _is_clockwise (anticlockwise_ring_from_minmax_envelope segmentize env none)
        = false) ∧
    ∀ ring : List (ℚ × ℚ), _is_clockwise ring = true ↔ shoelaceSum ring < 0 := by
  refine ⟨⟨rfl, ?_⟩, ?_⟩
  · simp only [anticlockwise_ring_from_minmax_envelope, _is_clockwise, shoelaceSum,
      decide_eq_false_iff_not, not_lt]
    nlinarith [mul_pos (sub_pos.mpr hx) (sub_pos.mpr hy)]
  · intro ring
    simp [_is_clockwise]

/-- Witness for C8 on the unit square with a trivial segmentize function. -/
theorem C8_anticlockwise_ring_witness :
    ((anticlockwise_ring_from_minmax_envelope (fun _ r => r) (0, 0, 1, 1) none).head?
        = (anticlockwise_ring_from_minmax_envelope (fun _ r => r)
            (0, 0, 1, 1) none).getLast? ∧
      _is_clockwise (anticlockwise_ring_from_minmax_envelope (fun _ r => r)
          (0, 0, 1, 1) none) = false) ∧
    ∀ ring : List (ℚ × ℚ), _is_clockwise ring = true ↔ shoelaceSum ring < 0 :=
  C8_anticlockwise_ring (fun _ r => r) (0, 0, 1, 1) (by norm_num) (by norm_num)

theorem getEnvelopeLoop_failure_none (mm : MinMaxEnvelope) :
    ∀ (ts : List TransformModel) (result : Option Envelope),
      (∃ t ∈ ts, ∀ envT : Envelope,
        transform_minmax_envelope t.segmentize t.T mm true ≠ .ok (some envT)) →
      getEnvelopeLoop ts result mm = none := by
  intro ts
  induction ts with
  | nil =>
    rintro result ⟨t, ht, -⟩
    cases ht
  | cons t rest ih =>
    rintro result ⟨t', ht', hfail⟩
    rcases List.mem_cons.mp ht' with rfl | hmem
    · rw [getEnvelopeLoop]
      rcases htm : transform_minmax_envelope t'.segmentize t'.T mm true with u | o
      · simp only [htm]
      · rcases o with _ | envT
        · simp only [htm]
        · exact absurd htm (hfail envT)
    · rw [getEnvelopeLoop]
      rcases htm : transform_minmax_envelope t.segmentize t.T mm true with u | o
      · simp only [htm]
      · rcases o with _ | envT
        · simp only [htm]
        · simp only [htm]
          exact ih _ ⟨t', hmem, hfail⟩

/-- Claim C6: feature-scoped failures yield none. If after the winding-order fix the
transformed envelope still has width at least 180 degrees, transform_minmax_envelope
returns none; and get_envelope_for_indexing returns none whenever the envelope
extraction raises, or any transform raises or yields none — the feature is skipped and
nothing propagates to the caller. -/
theorem C6_feature_failures_yield_none :
    (∀ (segmentize : SegmentizeFn) (T : TransformFn) (env : MinMaxEnvelope)
        (bufferForCurvature : Bool) (sx : Option ℚ) (fixedRing : List (ℚ × ℚ))
        (te : MinMaxEnvelope),
      ¬(env.1 = env.2.2.1 ∧ env.2.1 = env.2.2.2) →
      ringStage segmentize T env = .ok (sx, fixedRing, te) →
      180 ≤ (_minmax_envelope_dimensions te).1 →
      transform_minmax_envelope segmentize T env bufferForCurvature = .ok none) ∧
    (∀ transforms : List TransformModel,
      get_envelope_for_indexing (.error ()) transforms = none) ∧
    (∀ (ge : ℚ × ℚ × ℚ × ℚ) (transforms : List TransformModel),
      (∃ t ∈ transforms, ∀ envT : Envelope,
        transform_minmax_envelope t.segmentize t.T
          (_transpose_gpkg_or_ogr_envelope ge) true ≠ .ok (some envT)) →
      get_envelope_for_indexing (.ok ge) transforms = none) := by
  refine ⟨?_, fun _ => rfl, ?_⟩
  · intro segmentize T env b sx fixedRing te hnp hstage hwide
    rw [transform_minmax_envelope, if_neg hnp]
    simp only [hstage]
    rw [if_pos hwide]
  · intro ge transforms hex
    exact getEnvelopeLoop_failure_none _ transforms none hex

/-- Witness for C6: the identity transform on the 200-degree-wide envelope
(0, 0, 200, 10) keeps the ring anticlockwise, the width stays at least 180, and
transform_minmax_envelope returns none. -/
theorem C6_feature_failures_yield_none_witness :
    transform_minmax_envelope (fun _ r => r) (fun p => .ok p) (0, 0, 200, 10) true
      = .ok none := by
  have hring : anticlockwise_ring_from_minmax_envelope (fun _ r => r)
      ((0 : ℚ), (0 : ℚ), (200 : ℚ), (10 : ℚ)) none
      = [((0 : ℚ), (0 : ℚ)), (200, 0), (200, 10), (0, 10), (0, 0)] := rfl
  have hmap : ([((0 : ℚ), (0 : ℚ)), (200, 0), (200, 10), (0, 10), (0, 0)]).mapM
      (fun p => (.ok p : Except Unit (ℚ × ℚ)))
      = .ok [((0 : ℚ), (0 : ℚ)), (200, 0), (200, 10), (0, 10), (0, 0)] := rfl
  have hstage : ringStage (fun _ r => r) (fun p => .ok p) ((0 : ℚ), 0, 200, 10)
      = .ok (none, [((0 : ℚ), (0 : ℚ)), (200, 0), (200, 10), (0, 10), (0, 0)],
          ((0 : ℚ), 0, 200, 10)) := by
    rw [ringStage, hring, hmap]
    norm_num [get_ogr_envelope, _minmax_envelope_dimensions, _is_clockwise, shoelaceSum,
      min_def, max_def]
  exact C6_feature_failures_yield_none.1 (fun _ r => r) (fun p => .ok p)
    ((0 : ℚ), 0, 200, 10) true none
    [((0 : ℚ), (0 : ℚ)), (200, 0), (200, 10), (0, 10), (0, 0)] ((0 : ℚ), 0, 200, 10)
    (by norm_num) hstage (by norm_num [_minmax_envelope_dimensions])

end KartSpatialFilterIndex
